import Mathlib

/-!
Shallow embedding of the pierre-l/blockchain_network_simulation core
(src/blockchain/pow.rs, src/blockchain/mod.rs, src/blockchain/miner.rs and
the pow crate's src/blockchain/node.rs), with theorems checking the
natural-language specification against it.

Conventions of the embedding:
* bytes are `Nat`s that the operations themselves keep below 256; the
  fixed-size Rust arrays `[u8; 32]` and `[u8; 8]` become `List Nat` of the
  corresponding length;
* a Rust panic (out-of-bounds index, `usize` underflow) is modelled as
  `none` of an `Option` result;
* `Result<T, ()>` becomes `Option T`;
* the digest function behind the two-argument call
  `Hash::new(self.node_id, &self.nonce)` appearing in
  src/blockchain/mod.rs has no matching definition under the sources
  (pow.rs declares a four-parameter `Hash::new`), so the block/chain/miner
  development is parametric in a digest function
  `hashNew : Nat → List Nat → Hash` of exactly the two arguments those
  call sites pass; every theorem about it holds for any digest.
-/

namespace BCSim

/-- `std::u8::MAX`. -/
def U8_MAX : Nat := 255

/-! ### src/blockchain/pow.rs -/

/-- `Difficulty::min_difficulty()`: 32 bytes of 0xFF. -/
def min_difficulty : List Nat := List.replicate 32 U8_MAX

/-- `Difficulty::divide_inner_by_two`, rendered as a scan from the most
significant byte: the `while self.0[index_to_split] == 0` loop skips zero
bytes, then the first non-zero byte is halved (`self.0[index_to_split] /= 2`),
and when the halved byte is zero, `U8_MAX / 2` is written into the following
byte. Reading past the end of the array (every byte zero) or writing past it
(`next_index` equal to the length) is an out-of-bounds panic in Rust,
modelled as `none`. -/
def divide_inner_by_two : List Nat → Option (List Nat)
  | [] => none
  | b :: rest =>
    if b = 0 then
      (divide_inner_by_two rest).map (fun r => 0 :: r)
    else if b / 2 = 0 then
      match rest with
      | [] => none
      | _ :: rest2 => some (0 :: (U8_MAX / 2) :: rest2)
    else
      some ((b / 2) :: rest)

/-- `Difficulty::increase`. -/
def Difficulty.increase (d : List Nat) : Option (List Nat) :=
  divide_inner_by_two d

/-- `Difficulty::increase` lifted to `Option`, for iterating it: a panic is
absorbing. -/
def increaseStep (o : Option (List Nat)) : Option (List Nat) :=
  o.bind Difficulty.increase

/-- `Nonce::new()`: eight zero bytes. -/
def Nonce.new : List Nat := List.replicate 8 0

/-- The carry loop of `Nonce::increment`, acting on the reversed
(least-significant-byte-first) byte list: while the byte is 0xFF it is set
to 0 and the carry moves up; exhausting the list is the case where the Rust
loop decrements `index_to_increment` below zero (a `usize` underflow panic
in debug builds, an out-of-bounds index in release builds), modelled as
`none`. -/
def incrementCarry : List Nat → Option (List Nat)
  | [] => none
  | b :: rest =>
    if b = U8_MAX then (incrementCarry rest).map (fun r => 0 :: r)
    else some ((b + 1) :: rest)

/-- `Nonce::increment`: big-endian increment with carry from the last byte
upward. -/
def Nonce.increment (n : List Nat) : Option (List Nat) :=
  (incrementCarry n.reverse).map List.reverse

/-- `less_than_u8`: strict lexicographic comparison of two byte strings
(the source walks indices `0..len` while the bytes compare equal and
returns whether the first difference is `Less`; it assumes both slices
have the same length). -/
def less_than_u8 : List Nat → List Nat → Bool
  | a :: one, b :: other =>
    if a < b then true
    else if b < a then false
    else less_than_u8 one other
  | _, _ => false

/-- Value of a big-endian byte string as an unsigned integer (the "treated
as a 256-bit unsigned number" reading of a 32-byte difficulty target). -/
def beValue (l : List Nat) : Nat := l.foldl (fun acc b => acc * 256 + b) 0

/-! ### src/blockchain/mod.rs -/

/-- A SHA-256 digest, as its 32 bytes. -/
abbrev Hash := List Nat

/-- The digest functions of type `HashFn` stand for the two-argument call
`Hash::new(node_id, &nonce)` made by `Block::new`, `Block::genesis_block`
and `Block::is_valid` in src/blockchain/mod.rs; its body is not available
under the sources (pow.rs declares `Hash::new` with four parameters), so
the development quantifies over it. -/
abbrev HashFn := Nat → List Nat → Hash

/-- `Block` (src/blockchain/mod.rs). -/
structure Block where
  node_id : Nat
  nonce : List Nat
  hash : Hash
  previous_block_hash : Hash
deriving DecidableEq

/-- `Block::new(node_id, nonce, previous_block_hash)`: the stored hash is
computed from the node id and the nonce. -/
def Block.new (hashNew : HashFn) (node_id : Nat) (nonce : List Nat)
    (previous_block_hash : Hash) : Block :=
  { node_id := node_id
    nonce := nonce
    hash := hashNew node_id nonce
    previous_block_hash := previous_block_hash }

/-- `Block::genesis_block()`: sentinel node id `U8_MAX`, zero nonce, and a
self-referential `previous_block_hash`. -/
def Block.genesis_block (hashNew : HashFn) : Block :=
  let nonce := Nonce.new
  let hash := hashNew U8_MAX nonce
  { node_id := U8_MAX
    nonce := nonce
    previous_block_hash := hash
    hash := hash }

/-- `Block::is_valid(&self, difficulty)`: the stored hash must be below the
difficulty, and recomputing the hash — from the node id and the nonce, the
only data the call `Hash::new(self.node_id, &self.nonce)` passes — must
reproduce the stored hash. -/
def Block.is_valid (hashNew : HashFn) (b : Block) (difficulty : List Nat) : Bool :=
  if less_than_u8 b.hash difficulty then hashNew b.node_id b.nonce == b.hash
  else false

/-- `Chain` (src/blockchain/mod.rs): `head`, an optional `tail`
(`Option<Arc<Chain>>`; `Arc` sharing is invisible to a pure model), the
`difficulty` and the cached `height`. -/
inductive Chain where
  | mk (head : Block) (tail : Option Chain) (difficulty : List Nat) (height : Nat)

/-- Field `Chain.head`. -/
def Chain.head : Chain → Block
  | .mk h _ _ _ => h

/-- Field `Chain.tail`. -/
def Chain.tail : Chain → Option Chain
  | .mk _ t _ _ => t

/-- Field `Chain.difficulty`. -/
def Chain.difficulty : Chain → List Nat
  | .mk _ _ d _ => d

/-- Field `Chain.height` (also `Chain::height()`). -/
def Chain.height : Chain → Nat
  | .mk _ _ _ n => n

/-- `Chain::init_new(difficulty)`: height-0 chain holding the genesis
block and no tail. -/
def Chain.init_new (hashNew : HashFn) (difficulty : List Nat) : Chain :=
  .mk (Block.genesis_block hashNew) none difficulty 0

/-- `Chain::hashes_match(chain, block)`. -/
def Chain.hashes_match (chain : Chain) (block : Block) : Bool :=
  chain.head.hash == block.previous_block_hash

/-- `Chain::expand(chain, block)`: `Result<Arc<Chain>, ()>` rendered as
`Option Chain`; succeeds when the block's `previous_block_hash` matches
the head's hash and the block is valid for the chain's difficulty, and
then builds the taller chain with the old chain as tail. -/
def Chain.expand (hashNew : HashFn) (chain : Chain) (block : Block) : Option Chain :=
  if Chain.hashes_match chain block && Block.is_valid hashNew block chain.difficulty then
    some (.mk block (some chain) chain.difficulty (chain.height + 1))
  else
    none

/-! ### src/blockchain/miner.rs -/

/-- `MiningState` (src/blockchain/miner.rs). -/
structure MiningState where
  chain : Chain
  nonce : List Nat
  node_id : Nat

/-- `MiningState::new(node_id, chain)`: starts from a fresh zero nonce. -/
def MiningState.new (node_id : Nat) (chain : Chain) : MiningState :=
  { chain := chain, nonce := Nonce.new, node_id := node_id }

/-- The chain-update branch of the closure inside `mining_stream`
(src/blockchain/miner.rs lines 57-66): replace the target chain and reset
the nonce only when the update is strictly taller. -/
def applyChainUpdate (s : MiningState) (u : Chain) : MiningState :=
  if s.chain.height < u.height then { s with chain := u, nonce := Nonce.new }
  else s

/-- `mine(state)` (src/blockchain/miner.rs lines 99-115): increment the
nonce, build a block on the target chain's head, attempt to expand;
`MiningResult::Success`/`Failure` is the `Option Chain` component.
The nonce increment can panic (`Nonce::increment` at all-0xFF), hence the
outer `Option`. -/
def mine (hashNew : HashFn) (s : MiningState) : Option (MiningState × Option Chain) :=
  match Nonce.increment s.nonce with
  | none => none
  | some n =>
    let s1 : MiningState := { s with nonce := n }
    let head_hash := s1.chain.head.hash
    let block := Block.new hashNew s1.node_id s1.nonce head_hash
    match Chain.expand hashNew s1.chain block with
    | some mined_chain => some (s1, some mined_chain)
    | none => some (s1, none)

/-- The two event sources merged by `mining_stream`: a preemption update
carrying a chain, or a timer tick. -/
inductive MinerEvent where
  | chainUpdate (c : Chain)
  | tick

/-- One step of the merged stream inside `mining_stream`: an update event
runs the preemption branch and emits nothing; a tick runs `mine` and emits
the mined chain on success. -/
def miningStreamStep (hashNew : HashFn) (s : MiningState) :
    MinerEvent → Option (MiningState × Option Chain)
  | .chainUpdate u => some (applyChainUpdate s u, none)
  | .tick => mine hashNew s

/-! ### pow/src/blockchain/node.rs

`node.rs` belongs to the pow crate, whose own blockchain module (defining
`Chain::stronger_than` and `Chain::validate`) is not among the sources;
those two are modelled from the spec below. The `UnboundedSender` of a
peer is external library state; it is modelled by the one bit that decides
a send: whether the receiving end is still alive (`senderOpen`). The
router-to-miner notification `mine_new_chain` cannot fail while the miner
lives; the chains it carries are reported in the step result. -/

/-- `Peer` (pow/src/blockchain/node.rs). -/
structure Peer where
  senderOpen : Bool
  last_known_chain : Chain
  is_closed : Bool

/-- `PowNode` (pow/src/blockchain/node.rs); the mining delay plays no role
in the routing logic. -/
structure PowNode where
  node_id : Nat
  chain : Chain

/-- `NodeEvent` (pow/src/blockchain/node.rs). -/
inductive NodeEvent where
  | peer (p : Peer)
  | minedChain (c : Chain)
  | chainRemoteUpdate (c : Chain)

/-- Modelled from the spec: `Chain::stronger_than` is defined in the pow
crate's blockchain module, which is not among the sources (node.rs only
calls it). Spec: "`stronger_than(a, b) -> bool`: true iff
`a.height > b.height`. Equal heights are NOT stronger". -/
def Chain.stronger_than (a b : Chain) : Bool :=
  decide (b.height < a.height)

/-- Modelled from the spec: `Chain::validate` is defined in the pow crate's
blockchain module, which is not among the sources (node.rs only calls it).
Spec: "verify at least the head block's PoW and linkage to
`tail.head.hash`; a complete implementation recursively verifies every
block", with genesis exempt from the PoW predicate; this model is the
complete recursive variant. -/
def Chain.validate (hashNew : HashFn) : Chain → Bool
  | .mk head tail difficulty _ =>
    match tail with
    | none => true
    | some t =>
      (head.previous_block_hash == t.head.hash)
        && Block.is_valid hashNew head difficulty
        && Chain.validate hashNew t

/-- The outcome of one serial event of the router: the node state and peer
set after the event, the chains successfully sent to peers during it, and
the chain (if any) sent to the miner's preemption channel. -/
structure StepResult where
  node : PowNode
  peers : List Peer
  sentToPeers : List Chain
  minerNotify : Option Chain

/-- Body of the `peers.iter_mut().for_each` loop in `PowNode::propagate`
(pow/src/blockchain/node.rs lines 53-65): on a stronger chain, a
successful send advances `last_known_chain`; a failed send marks the peer
closed. -/
def sendToPeer (chain : Chain) (p : Peer) : Peer :=
  if Chain.stronger_than chain p.last_known_chain then
    if p.senderOpen then { p with last_known_chain := chain }
    else { p with is_closed := true }
  else p

/-- `PowNode::propagate` (pow/src/blockchain/node.rs lines 45-87): run the
per-peer send loop, retain the non-closed peers, then — when the chain is
stronger than the node's own — notify the miner and replace `self.chain`.
The natural-fork branch (equal height, different head hash) only logs. -/
def propagate (s : PowNode) (peers : List Peer) (chain : Chain) : StepResult :=
  let sent := (peers.filter fun p =>
    Chain.stronger_than chain p.last_known_chain && p.senderOpen).map fun _ => chain
  let peers1 := (peers.map (sendToPeer chain)).filter fun p => !p.is_closed
  if Chain.stronger_than chain s.chain then
    { node := { s with chain := chain }
      peers := peers1
      sentToPeers := sent
      minerNotify := some chain }
  else
    { node := s, peers := peers1, sentToPeers := sent, minerNotify := none }

/-- The `Peer` record built when a connection arrives
(pow/src/blockchain/node.rs lines 112-116): its `last_known_chain` is the
`genesis_chain` captured when `run` started, not the node's current
chain. -/
def mkPeer (genesis_chain : Chain) (senderOpen : Bool) : Peer :=
  { senderOpen := senderOpen, last_known_chain := genesis_chain, is_closed := false }

/-- The serial event handler of `PowNode::run`
(pow/src/blockchain/node.rs lines 129-160): a new peer first receives the
node's current chain and is kept only when that send succeeds; a mined
chain is propagated; a remote chain is validated and propagated only on
success. -/
def handleEvent (hashNew : HashFn) (s : PowNode) (peers : List Peer) :
    NodeEvent → StepResult
  | .peer p =>
    if p.senderOpen then
      { node := s, peers := peers ++ [p], sentToPeers := [s.chain], minerNotify := none }
    else
      { node := s, peers := peers, sentToPeers := [], minerNotify := none }
  | .minedChain c => propagate s peers c
  | .chainRemoteUpdate c =>
    if Chain.validate hashNew c then propagate s peers c
    else { node := s, peers := peers, sentToPeers := [], minerNotify := none }

/-- The router over a whole event sequence: fold of `handleEvent`. -/
def runEvents (hashNew : HashFn) :
    PowNode → List Peer → List NodeEvent → PowNode × List Peer
  | s, peers, [] => (s, peers)
  | s, peers, e :: es =>
    let out := handleEvent hashNew s peers e
    runEvents hashNew out.node out.peers es

/-- The peers an event itself carries into the peer set (only a `NewPeer`
event does). -/
def eventNewPeers : NodeEvent → List Peer
  | .peer p => [p]
  | _ => []

/-! ### Concrete fixtures for witnesses and counterexamples -/

/-- A concrete stand-in digest function used to instantiate the
`hashNew`-parametric theorems on closed inputs. -/
def testHash (node_id : Nat) (nonce : List Nat) : Hash :=
  List.replicate 31 0 ++ [(node_id + beValue nonce) % 256]

/-- Fixture: a genesis chain at minimum difficulty. -/
def testGenesis : Chain := Chain.init_new testHash min_difficulty

/-- Fixture: the nonce 1 (big-endian). -/
def testNonce1 : List Nat := [0, 0, 0, 0, 0, 0, 0, 1]

/-- Fixture: a block extending `testGenesis`, valid under `testHash`. -/
def testBlock1 : Block := Block.new testHash 1 testNonce1 testGenesis.head.hash

/-- Fixture: the height-1 chain `testBlock1 :: testGenesis`. -/
def testChain1 : Chain := .mk testBlock1 (some testGenesis) min_difficulty 1

/-- Fixture: a block whose stored hash does not match the recomputed one
(the spec's "head block with `hash` mutated" scenario). -/
def badBlock : Block :=
  { node_id := 1
    nonce := testNonce1
    hash := List.replicate 32 1
    previous_block_hash := testGenesis.head.hash }

/-- Fixture: an invalid height-1 chain headed by `badBlock`. -/
def badChain : Chain := .mk badBlock (some testGenesis) min_difficulty 1

/-- Fixture: a miner state targeting the genesis chain. -/
def testMS : MiningState := MiningState.new 1 testGenesis

/-- Fixture: a miner state already targeting the height-1 chain. -/
def testMSTall : MiningState := MiningState.new 1 testChain1

/-- Fixture: a router node whose chain has advanced to height 1. -/
def testNode1 : PowNode := { node_id := 1, chain := testChain1 }

/-- Fixture: a router node still at the genesis chain. -/
def testNode0 : PowNode := { node_id := 1, chain := testGenesis }

/-- Fixture: the pair `mine testHash testMS` evaluates to. -/
def testMineResult : MiningState × Option Chain :=
  ({ testMS with nonce := testNonce1 }, some testChain1)

/-! ## Helper lemmas -/

/-- The big-endian fold is strictly monotone in its accumulator. -/
theorem foldlAcc_lt (l : List Nat) :
    ∀ {a b : Nat}, a < b →
      l.foldl (fun acc x => acc * 256 + x) a < l.foldl (fun acc x => acc * 256 + x) b := by
  induction l with
  | nil => intro a b h; simpa using h
  | cons x xs ih =>
    intro a b h
    simp only [List.foldl_cons]
    exact ih (by omega)

/-- A successful `divide_inner_by_two` strictly lowers the big-endian value,
for any accumulator. -/
theorem divide_lt :
    ∀ (d d' : List Nat), divide_inner_by_two d = some d' →
      ∀ a, d'.foldl (fun acc x => acc * 256 + x) a < d.foldl (fun acc x => acc * 256 + x) a := by
  intro d
  induction d with
  | nil => intro d' h; simp [divide_inner_by_two] at h
  | cons b rest ih =>
    intro d' h a
    by_cases hb : b = 0
    · subst hb
      have hstep : divide_inner_by_two (0 :: rest) =
          (divide_inner_by_two rest).map (fun r => 0 :: r) := by
        simp [divide_inner_by_two]
      rw [hstep, Option.map_eq_some'] at h
      obtain ⟨r, hr, rfl⟩ := h
      simpa using ih r hr (a * 256 + 0)
    · by_cases hhalf : b / 2 = 0
      · have hb1 : b = 1 := by omega
        subst hb1
        cases rest with
        | nil => simp [divide_inner_by_two] at h
        | cons c rest2 =>
          have hstep : divide_inner_by_two (1 :: c :: rest2) =
              some (0 :: (U8_MAX / 2) :: rest2) := by
            simp [divide_inner_by_two]
          rw [hstep, Option.some_inj] at h
          subst h
          simp only [List.foldl_cons]
          refine foldlAcc_lt rest2 ?_
          have hu : U8_MAX / 2 = 127 := rfl
          omega
      · have hstep : divide_inner_by_two (b :: rest) = some ((b / 2) :: rest) := by
          simp [divide_inner_by_two, hb, hhalf]
        rw [hstep, Option.some_inj] at h
        subst h
        simp only [List.foldl_cons]
        refine foldlAcc_lt rest ?_
        omega

/-- When every byte before the first 1 is zero and a byte follows it,
`divide_inner_by_two` zeroes the 1 and writes `U8_MAX / 2` next. -/
theorem divide_first_one (pre : List Nat) (c : Nat) (rest : List Nat)
    (hpre : ∀ b ∈ pre, b = 0) :
    divide_inner_by_two (pre ++ 1 :: c :: rest) = some (pre ++ 0 :: (U8_MAX / 2) :: rest) := by
  induction pre with
  | nil => simp [divide_inner_by_two]
  | cons z pre ih =>
    have hz : z = 0 := hpre z (by simp)
    subst hz
    have : divide_inner_by_two (pre ++ 1 :: c :: rest) = some (pre ++ 0 :: (U8_MAX / 2) :: rest) :=
      ih fun b hb => hpre b (by simp [hb])
    simp [divide_inner_by_two, this]

/-- `divide_inner_by_two` panics exactly on the all-zero target and on a
target whose first non-zero byte is the final byte holding 1. -/
theorem divide_none_iff :
    ∀ d : List Nat, divide_inner_by_two d = none ↔
      ((∀ b ∈ d, b = 0) ∨ ∃ z, (∀ b ∈ z, b = 0) ∧ d = z ++ [1]) := by
  intro d
  induction d with
  | nil => simp [divide_inner_by_two]
  | cons b rest ih =>
    by_cases hb : b = 0
    · subst hb
      have hstep : divide_inner_by_two (0 :: rest) =
          (divide_inner_by_two rest).map (fun r => 0 :: r) := by
        simp [divide_inner_by_two]
      rw [hstep, Option.map_eq_none', ih]
      constructor
      · rintro (hz | ⟨z, hz, rfl⟩)
        · exact Or.inl (by simpa using hz)
        · exact Or.inr ⟨0 :: z, by simpa using hz, rfl⟩
      · rintro (hz | ⟨z, hz, hd⟩)
        · exact Or.inl fun x hx => hz x (by simp [hx])
        · cases z with
          | nil => simp at hd
          | cons z0 z =>
            rw [List.cons_append] at hd
            obtain ⟨-, rfl⟩ := List.cons.inj hd
            exact Or.inr ⟨z, fun x hx => hz x (by simp [hx]), rfl⟩
    · by_cases hhalf : b / 2 = 0
      · have hb1 : b = 1 := by omega
        subst hb1
        cases rest with
        | nil =>
          have hstep : divide_inner_by_two [1] = none := by
            simp [divide_inner_by_two]
          rw [hstep]
          simp only [true_iff]
          exact Or.inr ⟨[], by simp, rfl⟩
        | cons c rest2 =>
          have hstep : divide_inner_by_two (1 :: c :: rest2) =
              some (0 :: (U8_MAX / 2) :: rest2) := by
            simp [divide_inner_by_two]
          rw [hstep]
          constructor
          · intro h; cases h
          · rintro (hz | ⟨z, hz, hd⟩)
            · exact absurd (hz 1 (by simp)) one_ne_zero
            · cases z with
              | nil => simp at hd
              | cons z0 z =>
                rw [List.cons_append] at hd
                obtain ⟨h1, -⟩ := List.cons.inj hd
                exact absurd (hz z0 (by simp)) (by omega)
      · have hstep : divide_inner_by_two (b :: rest) = some ((b / 2) :: rest) := by
          simp [divide_inner_by_two, hb, hhalf]
        rw [hstep]
        constructor
        · intro h; cases h
        · rintro (hz | ⟨z, hz, hd⟩)
          · exact absurd (hz b (by simp)) hb
          · cases z with
            | nil =>
              obtain ⟨h1, -⟩ := List.cons.inj hd
              omega
            | cons z0 z =>
              rw [List.cons_append] at hd
              obtain ⟨h1, -⟩ := List.cons.inj hd
              exact absurd (hz z0 (by simp)) (by omega)

/-! ## Claims -/

/-- C7: every invocation of `Difficulty::increase` that returns a target
strictly lowers it as a big-endian unsigned number, and when the first
non-zero byte is 1 (with a byte after it) that byte is halved to 0 and the
following byte is set to 0x7F = `U8_MAX / 2`. -/
theorem C7_increase_strictly_lowers :
    (∀ d d', Difficulty.increase d = some d' → beValue d' < beValue d) ∧
    (∀ pre c rest, (∀ b ∈ pre, b = 0) →
      Difficulty.increase (pre ++ 1 :: c :: rest) = some (pre ++ 0 :: (U8_MAX / 2) :: rest)) :=
  ⟨fun d d' h => divide_lt d d' h 0, fun pre c rest hpre => divide_first_one pre c rest hpre⟩

/-- Witness for C7 at concrete targets: the first increase from the
minimum difficulty, and a halve-to-zero step at a first non-zero byte 1. -/
theorem C7_increase_strictly_lowers_witness :
    beValue ((U8_MAX / 2) :: List.replicate 31 U8_MAX) < beValue min_difficulty ∧
    Difficulty.increase ([0, 0] ++ 1 :: 9 :: List.replicate 28 5) =
      some ([0, 0] ++ 0 :: (U8_MAX / 2) :: List.replicate 28 5) :=
  ⟨C7_increase_strictly_lowers.1 min_difficulty ((U8_MAX / 2) :: List.replicate 31 U8_MAX)
      (by decide),
   C7_increase_strictly_lowers.2 [0, 0] 9 (List.replicate 28 5) (by decide)⟩

/-- C8: the claim asks `Nonce::increment` to wrap the all-0xFF nonce
without panicking, but the carry loop decrements its index below zero
there (`usize` underflow in debug, out-of-bounds index in release): the
embedded increment signals the panic as `none` on that input. -/
theorem C8_increment_all_ff_panics :
    Nonce.increment (List.replicate 8 U8_MAX) = none := by decide

set_option maxRecDepth 20000 in
/-- C9: `Difficulty::increase` stays in bounds exactly when some byte is
non-zero and the first non-zero byte is not the final byte holding 1 (the
`none` results are exactly the all-zero target and the `z ++ [1]` targets
with `z` all zero); moreover 224 repeated increases from the minimum
difficulty reach the unsafe target `0^31 ++ [1]`, and the 225th goes out
of bounds. -/
theorem C9_increase_out_of_bounds :
    (∀ d, Difficulty.increase d = none ↔
      ((∀ b ∈ d, b = 0) ∨ ∃ z, (∀ b ∈ z, b = 0) ∧ d = z ++ [1])) ∧
    increaseStep^[224] (some min_difficulty) = some (List.replicate 31 0 ++ [1]) ∧
    increaseStep^[225] (some min_difficulty) = none :=
  ⟨fun d => divide_none_iff d, by decide, by decide⟩

/-- Witness for C9 on the all-zero target: the characterization yields the
out-of-bounds result there. -/
theorem C9_increase_out_of_bounds_witness :
    Difficulty.increase (List.replicate 32 0) = none :=
  (C9_increase_out_of_bounds.1 (List.replicate 32 0)).mpr (Or.inl (by decide))

/-- The per-peer loop body of `propagate` never lowers a peer's
`last_known_chain` height, and changes it only to a strictly greater
height. -/
theorem sendToPeer_last_known (chain : Chain) (p : Peer) :
    p.last_known_chain.height ≤ (sendToPeer chain p).last_known_chain.height ∧
    ((sendToPeer chain p).last_known_chain ≠ p.last_known_chain →
      p.last_known_chain.height < (sendToPeer chain p).last_known_chain.height) := by
  unfold sendToPeer
  by_cases hs : Chain.stronger_than chain p.last_known_chain = true
  · have hlt : p.last_known_chain.height < chain.height := of_decide_eq_true hs
    by_cases ho : p.senderOpen = true
    · simp only [hs, ho, if_true]
      exact ⟨Nat.le_of_lt hlt, fun _ => hlt⟩
    · simp only [hs, if_true, ho, if_false]
      exact ⟨Nat.le_refl _, fun hne => absurd rfl hne⟩
  · simp only [hs, if_false]
    exact ⟨Nat.le_refl _, fun hne => absurd rfl hne⟩

/-- `propagate` never lowers the node's own chain height, and replaces the
chain only by a strictly taller one. -/
theorem propagate_node_height (s : PowNode) (peers : List Peer) (c : Chain) :
    s.chain.height ≤ (propagate s peers c).node.chain.height ∧
    ((propagate s peers c).node.chain ≠ s.chain →
      s.chain.height < (propagate s peers c).node.chain.height) := by
  unfold propagate
  by_cases hs : Chain.stronger_than c s.chain = true
  · have hlt : s.chain.height < c.height := of_decide_eq_true hs
    simp only [hs, if_true]
    exact ⟨Nat.le_of_lt hlt, fun _ => hlt⟩
  · simp only [hs, if_false]
    exact ⟨Nat.le_refl _, fun hne => absurd rfl hne⟩

/-- Every peer surviving a `propagate` is the loop body's image of a peer
of the incoming peer set. -/
theorem propagate_peers_origin (s : PowNode) (peers : List Peer) (c : Chain) :
    ∀ p' ∈ (propagate s peers c).peers, ∃ p ∈ peers, p' = sendToPeer c p := by
  intro p' hp'
  have hmem : p' ∈ (peers.map (sendToPeer c)).filter fun q => !q.is_closed := by
    unfold propagate at hp'
    by_cases hs : Chain.stronger_than c s.chain = true
    · simpa only [hs, if_true] using hp'
    · simpa only [hs, if_false] using hp'
  have hmap := List.mem_of_mem_filter hmem
  obtain ⟨p, hp, he⟩ := List.mem_map.mp hmap
  exact ⟨p, hp, he.symm⟩

/-- A single routed event never lowers the node's chain height. -/
theorem handleEvent_node_height_le (hashNew : HashFn) (s : PowNode) (peers : List Peer) :
    ∀ e : NodeEvent, s.chain.height ≤ (handleEvent hashNew s peers e).node.chain.height := by
  intro e
  cases e with
  | peer p =>
    by_cases hp : p.senderOpen = true <;> simp [handleEvent, hp]
  | minedChain c =>
    simpa [handleEvent] using (propagate_node_height s peers c).1
  | chainRemoteUpdate c =>
    by_cases hv : Chain.validate hashNew c = true
    · simpa [handleEvent, hv] using (propagate_node_height s peers c).1
    · simp [handleEvent, hv]

/-- Across any event sequence the node's chain height never decreases. -/
theorem runEvents_node_height_le (hashNew : HashFn) :
    ∀ (evs : List NodeEvent) (s : PowNode) (peers : List Peer),
      s.chain.height ≤ (runEvents hashNew s peers evs).1.chain.height := by
  intro evs
  induction evs with
  | nil => intro s peers; simp [runEvents]
  | cons e es ih =>
    intro s peers
    have hr : runEvents hashNew s peers (e :: es) =
        runEvents hashNew (handleEvent hashNew s peers e).node
          (handleEvent hashNew s peers e).peers es := by
      simp [runEvents]
    rw [hr]
    exact Nat.le_trans (handleEvent_node_height_le hashNew s peers e)
      (ih (handleEvent hashNew s peers e).node (handleEvent hashNew s peers e).peers)

/-- C1: for any digest function, `Chain::expand` succeeds exactly when the
block's `previous_block_hash` is the chain head's hash and the block is
valid for the chain's difficulty; on success the new chain is one higher,
headed by the block, with the old chain as tail (so the new head's
`previous_block_hash` is the old head's hash); on failure it returns the
error (`none`). -/
theorem C1_expand_correct (hashNew : HashFn) (ch : Chain) (b : Block) :
    ((Chain.expand hashNew ch b).isSome ↔
      (b.previous_block_hash = ch.head.hash ∧ Block.is_valid hashNew b ch.difficulty = true)) ∧
    ∀ ch', Chain.expand hashNew ch b = some ch' →
      ch'.height = ch.height + 1 ∧ ch'.head = b ∧ ch'.tail = some ch ∧
      ch'.head.previous_block_hash = ch.head.hash := by
  by_cases hm : Chain.hashes_match ch b = true
  · have hprev : b.previous_block_hash = ch.head.hash := by
      have := hm
      simp only [Chain.hashes_match, beq_iff_eq] at this
      exact this.symm
    by_cases hv : Block.is_valid hashNew b ch.difficulty = true
    · have hx : Chain.expand hashNew ch b =
          some (.mk b (some ch) ch.difficulty (ch.height + 1)) := by
        simp [Chain.expand, hm, hv]
      refine ⟨by simp [hx, hprev, hv], ?_⟩
      intro ch' h
      rw [hx, Option.some_inj] at h
      subst h
      exact ⟨rfl, rfl, rfl, hprev⟩
    · have hx : Chain.expand hashNew ch b = none := by
        simp [Chain.expand, hv]
      refine ⟨by simp [hx, hv], ?_⟩
      intro ch' h
      rw [hx] at h
      cases h
  · have hprev : ¬b.previous_block_hash = ch.head.hash := by
      simp only [Chain.hashes_match, beq_iff_eq] at hm
      exact fun h => hm h.symm
    have hx : Chain.expand hashNew ch b = none := by
      simp [Chain.expand, hm]
    refine ⟨by simp [hx, hprev], ?_⟩
    intro ch' h
    rw [hx] at h
    cases h

/-- Witness for C1 on a concrete digest, genesis chain and valid block. -/
theorem C1_expand_correct_witness :
    (Chain.expand testHash testGenesis testBlock1).isSome ∧
    testChain1.height = testGenesis.height + 1 ∧ testChain1.head = testBlock1 ∧
    testChain1.tail = some testGenesis ∧
    testChain1.head.previous_block_hash = testGenesis.head.hash :=
  ⟨(C1_expand_correct testHash testGenesis testBlock1).1.mpr ⟨rfl, rfl⟩,
   (C1_expand_correct testHash testGenesis testBlock1).2 testChain1 rfl⟩

/-- C2: the claim wants `is_valid` to recompute the hash over all four
fields (node_id, nonce, previous_hash, difficulty), but the recomputation
in `Block::is_valid` is the call `Hash::new(self.node_id, &self.nonce)`,
which receives the node id and the nonce only — so the result of
`is_valid` cannot depend on `previous_block_hash` at all, for any digest
function. (In the sources the call cannot even link: pow.rs declares
`Hash::new` with four parameters and a `u32` node id.) -/
theorem C2_is_valid_ignores_previous_hash (hashNew : HashFn) (b : Block)
    (d : List Nat) (prev : Hash) :
    Block.is_valid hashNew { b with previous_block_hash := prev } d =
      Block.is_valid hashNew b d := by
  simp [Block.is_valid]

/-- C3: a preemption update replaces the miner's target chain and resets
the nonce exactly when the update is strictly taller; equal or lower
heights leave the state untouched, and the update branch never emits. -/
theorem C3_preemption_update (hashNew : HashFn) (s : MiningState) (u : Chain) :
    (s.chain.height < u.height →
      applyChainUpdate s u = { s with chain := u, nonce := Nonce.new } ∧
      miningStreamStep hashNew s (.chainUpdate u) =
        some ({ s with chain := u, nonce := Nonce.new }, none)) ∧
    (¬s.chain.height < u.height →
      applyChainUpdate s u = s ∧
      miningStreamStep hashNew s (.chainUpdate u) = some (s, none)) := by
  constructor <;> intro h <;>
    simp [applyChainUpdate, miningStreamStep, h]

/-- Witness for C3: a strictly taller update preempts; an equal-height
update is ignored. -/
theorem C3_preemption_update_witness :
    (applyChainUpdate testMS testChain1 =
        { testMS with chain := testChain1, nonce := Nonce.new } ∧
      miningStreamStep testHash testMS (.chainUpdate testChain1) =
        some ({ testMS with chain := testChain1, nonce := Nonce.new }, none)) ∧
    (applyChainUpdate testMSTall testChain1 = testMSTall ∧
      miningStreamStep testHash testMSTall (.chainUpdate testChain1) =
        some (testMSTall, none)) :=
  ⟨(C3_preemption_update testHash testMS testChain1).1 (by decide),
   (C3_preemption_update testHash testMSTall testChain1).2 (by decide)⟩

/-- C10: on a tick, `mine` increments the nonce exactly once whatever the
outcome, and mutates nothing else of the miner's state: the target chain
and node id are unchanged, a successfully mined chain is only emitted
(it is the `expand` of the unchanged target, not assigned to the state),
and the nonce is not reset. -/
theorem C10_mine_frame (hashNew : HashFn) (s : MiningState)
    (r : MiningState × Option Chain) (h : mine hashNew s = some r) :
    Nonce.increment s.nonce = some r.1.nonce ∧
    r.1.chain = s.chain ∧
    r.1.node_id = s.node_id ∧
    (∀ c, r.2 = some c →
      Chain.expand hashNew s.chain
        (Block.new hashNew s.node_id r.1.nonce s.chain.head.hash) = some c) ∧
    miningStreamStep hashNew s .tick = mine hashNew s := by
  unfold mine at h
  cases hinc : Nonce.increment s.nonce with
  | none => rw [hinc] at h; cases h
  | some n =>
    rw [hinc] at h
    dsimp only at h
    cases hexp : Chain.expand hashNew s.chain (Block.new hashNew s.node_id n s.chain.head.hash) with
    | none =>
      rw [hexp] at h
      rw [Option.some_inj] at h
      subst h
      exact ⟨rfl, rfl, rfl, fun c hc => absurd hc (by simp), rfl⟩
    | some mined =>
      rw [hexp] at h
      rw [Option.some_inj] at h
      subst h
      refine ⟨rfl, rfl, rfl, fun c hc => ?_, rfl⟩
      rw [Option.some_inj] at hc
      subst hc
      exact hexp

/-- Witness for C10 on a concrete miner state whose tick mines a block. -/
theorem C10_mine_frame_witness :
    Chain.expand testHash testMS.chain
      (Block.new testHash testMS.node_id testMineResult.1.nonce testMS.chain.head.hash) =
        some testChain1 ∧
    testMineResult.1.chain = testMS.chain ∧
    Nonce.increment testMS.nonce = some testMineResult.1.nonce :=
  ⟨(C10_mine_frame testHash testMS testMineResult rfl).2.2.2.1 testChain1 rfl,
   (C10_mine_frame testHash testMS testMineResult rfl).2.1,
   (C10_mine_frame testHash testMS testMineResult rfl).1⟩

/-- C4 counterexample: the claim says a new peer is inserted with
`last_known_chain` equal to the router's current chain at that moment.
Concretely, a router whose chain has advanced to `testChain1` (height 1)
handles a `NewPeer` carrying the record built at connection time (whose
`last_known_chain` is the startup chain `testGenesis`): the send of the
current chain succeeds and the peer is inserted, but its
`last_known_chain` has height 0 while the router's chain has height 1. -/
theorem C4_counterexample :
    (handleEvent testHash testNode1 [] (.peer (mkPeer testGenesis true))).sentToPeers =
      [testChain1] ∧
    (handleEvent testHash testNode1 [] (.peer (mkPeer testGenesis true))).peers =
      [mkPeer testGenesis true] ∧
    (mkPeer testGenesis true).last_known_chain.height = 0 ∧
    testNode1.chain.height = 1 :=
  ⟨rfl, rfl, rfl, rfl⟩

/-- C4 (amended): on `NewPeer` the router sends its current chain to the
peer; if the send succeeds the peer is inserted exactly as the event
carries it — with `last_known_chain` equal to the chain captured when
`run` started (the record built at connection time), not necessarily the
router's current chain — and if the send fails the peer is never
inserted and nothing else changes. -/
theorem C4_newpeer_insert (hashNew : HashFn) (s : PowNode) (peers : List Peer)
    (g : Chain) (opn : Bool) :
    (mkPeer g opn).last_known_chain = g ∧
    (opn = true →
      handleEvent hashNew s peers (.peer (mkPeer g opn)) =
        { node := s, peers := peers ++ [mkPeer g opn], sentToPeers := [s.chain],
          minerNotify := none }) ∧
    (opn = false →
      handleEvent hashNew s peers (.peer (mkPeer g opn)) =
        { node := s, peers := peers, sentToPeers := [], minerNotify := none }) := by
  refine ⟨rfl, fun h => ?_, fun h => ?_⟩ <;> simp [handleEvent, mkPeer, h]

/-- Witness for C4 (amended): a peer with a live channel is inserted as
carried; one with a dead channel is dropped. -/
theorem C4_newpeer_insert_witness :
    handleEvent testHash testNode1 [] (.peer (mkPeer testGenesis true)) =
      { node := testNode1, peers := [] ++ [mkPeer testGenesis true],
        sentToPeers := [testNode1.chain], minerNotify := none } ∧
    handleEvent testHash testNode1 [] (.peer (mkPeer testGenesis false)) =
      { node := testNode1, peers := [], sentToPeers := [], minerNotify := none } :=
  ⟨(C4_newpeer_insert testHash testNode1 [] testGenesis true).2.1 rfl,
   (C4_newpeer_insert testHash testNode1 [] testGenesis false).2.2 rfl⟩

/-- C5: a remote chain that fails validation is dropped atomically — the
node's chain, the peer set, the set of chains sent to peers (none) and the
miner notification (none) are exactly as if the event had not happened. -/
theorem C5_invalid_chain_dropped (hashNew : HashFn) (s : PowNode) (peers : List Peer)
    (c : Chain) (h : Chain.validate hashNew c = false) :
    handleEvent hashNew s peers (.chainRemoteUpdate c) =
      { node := s, peers := peers, sentToPeers := [], minerNotify := none } := by
  simp [handleEvent, h]

/-- Witness for C5: a height-1 chain whose head hash was tampered with
fails validation and leaves a router with one peer fully unchanged. -/
theorem C5_invalid_chain_dropped_witness :
    Chain.validate testHash badChain = false ∧
    handleEvent testHash testNode0 [mkPeer testGenesis true] (.chainRemoteUpdate badChain) =
      { node := testNode0, peers := [mkPeer testGenesis true], sentToPeers := [],
        minerNotify := none } :=
  ⟨rfl, C5_invalid_chain_dropped testHash testNode0 [mkPeer testGenesis true] badChain rfl⟩

/-- C6: across every event sequence the node's chain height is
monotonically non-decreasing; per event, the chain is replaced only
through a strictly-greater-height gate, and every peer in the resulting
peer set is either the peer the event itself introduced or derives from an
incoming peer whose `last_known_chain` height did not decrease (and
strictly increased whenever the chain was replaced). -/
theorem C6_height_monotonicity (hashNew : HashFn) (s : PowNode) (peers : List Peer) :
    (∀ evs, s.chain.height ≤ (runEvents hashNew s peers evs).1.chain.height) ∧
    ∀ e : NodeEvent,
      (((handleEvent hashNew s peers e).node.chain ≠ s.chain →
        s.chain.height < (handleEvent hashNew s peers e).node.chain.height) ∧
      ∀ p' ∈ (handleEvent hashNew s peers e).peers,
        p' ∈ eventNewPeers e ∨
        ∃ p ∈ peers,
          p.last_known_chain.height ≤ p'.last_known_chain.height ∧
          (p'.last_known_chain ≠ p.last_known_chain →
            p.last_known_chain.height < p'.last_known_chain.height)) := by
  refine ⟨fun evs => runEvents_node_height_le hashNew evs s peers, fun e => ⟨?_, ?_⟩⟩
  · cases e with
    | peer p =>
      intro hne
      exact absurd (by by_cases hp : p.senderOpen = true <;> simp [handleEvent, hp]) hne
    | minedChain c =>
      intro hne
      exact (propagate_node_height s peers c).2 hne
    | chainRemoteUpdate c =>
      by_cases hv : Chain.validate hashNew c = true
      · have hrw : handleEvent hashNew s peers (.chainRemoteUpdate c) = propagate s peers c := by
          simp [handleEvent, hv]
        rw [hrw]
        exact (propagate_node_height s peers c).2
      · intro hne
        exact absurd (by simp [handleEvent, hv]) hne
  · cases e with
    | peer p =>
      intro p' hp'
      by_cases hp : p.senderOpen = true
      · have hmem : p' ∈ peers ++ [p] := by simpa [handleEvent, hp] using hp'
        rcases List.mem_append.mp hmem with hold | hnew
        · exact Or.inr ⟨p', hold, Nat.le_refl _, fun hne => absurd rfl hne⟩
        · exact Or.inl (by simpa [eventNewPeers] using hnew)
      · have hmem : p' ∈ peers := by simpa [handleEvent, hp] using hp'
        exact Or.inr ⟨p', hmem, Nat.le_refl _, fun hne => absurd rfl hne⟩
    | minedChain c =>
      intro p' hp'
      obtain ⟨p, hp, rfl⟩ := propagate_peers_origin s peers c p' hp'
      exact Or.inr ⟨p, hp, (sendToPeer_last_known c p).1, (sendToPeer_last_known c p).2⟩
    | chainRemoteUpdate c =>
      intro p' hp'
      by_cases hv : Chain.validate hashNew c = true
      · have hp'' : p' ∈ (propagate s peers c).peers := by
          simpa [handleEvent, hv] using hp'
        obtain ⟨p, hp, rfl⟩ := propagate_peers_origin s peers c p' hp''
        exact Or.inr ⟨p, hp, (sendToPeer_last_known c p).1, (sendToPeer_last_known c p).2⟩
      · have hmem : p' ∈ peers := by simpa [handleEvent, hv] using hp'
        exact Or.inr ⟨p', hmem, Nat.le_refl _, fun hne => absurd rfl hne⟩

/-- Witness for C6: a mined height-1 chain strictly raises the chain of a
genesis-level router, and the single peer's record comes from the
incoming peer set with a non-decreased `last_known_chain` height. -/
theorem C6_height_monotonicity_witness :
    testNode0.chain.height <
      (handleEvent testHash testNode0 [mkPeer testGenesis true]
        (.minedChain testChain1)).node.chain.height ∧
    (sendToPeer testChain1 (mkPeer testGenesis true) ∈
        eventNewPeers (.minedChain testChain1) ∨
      ∃ p ∈ [mkPeer testGenesis true],
        p.last_known_chain.height ≤
          (sendToPeer testChain1 (mkPeer testGenesis true)).last_known_chain.height ∧
        ((sendToPeer testChain1 (mkPeer testGenesis true)).last_known_chain ≠
            p.last_known_chain →
          p.last_known_chain.height <
            (sendToPeer testChain1 (mkPeer testGenesis true)).last_known_chain.height)) :=
  ⟨((C6_height_monotonicity testHash testNode0 [mkPeer testGenesis true]).2
      (.minedChain testChain1)).1
      (fun h => absurd (congrArg Chain.height h) (by decide)),
   ((C6_height_monotonicity testHash testNode0 [mkPeer testGenesis true]).2
      (.minedChain testChain1)).2 (sendToPeer testChain1 (mkPeer testGenesis true))
      (by
        show sendToPeer testChain1 (mkPeer testGenesis true) ∈
          [sendToPeer testChain1 (mkPeer testGenesis true)]
        exact List.mem_singleton.mpr rfl)⟩

end BCSim
